import Mathlib

/-!
Verification development for the X-Ray SDK repository: a shallow embedding
of the tracing client (`packages/xray_sdk/xray_sdk/client.py`) and of the
collector API (`apps/api/main.py`), together with theorems settling the
frozen specification claims.

JSON-like values are modelled by the inductive type `J` (Python dicts keep
insertion order, so objects are ordered association lists with string keys).
Machine-level concerns (real sockets, real files) are modelled by explicit
state: the queue file is an optional list of text lines, and the network is
an oracle telling which send requests succeed.
-/

namespace XRay

/-- JSON-like values: scalars, sequences, and insertion-ordered maps with
string keys, mirroring the Python dict/list/scalar universe the client
manipulates. -/
inductive J where
  | jnull
  | jbool (b : Bool)
  | jnum (n : Int)
  | jstr (s : String)
  | jarr (xs : List J)
  | jobj (fields : List (String × J))
  deriving Repr

/-- ASCII lowering of one character, the behaviour `str.lower` has on the
ASCII keys the client uses. -/
def lowerChar (c : Char) : Char :=
  if 65 ≤ c.toNat ∧ c.toNat ≤ 90 then Char.ofNat (c.toNat + 32) else c

/-- ASCII lowering of a string (model of Python's `str.lower()` on the
ASCII key strings relevant here). -/
def lowerStr (s : String) : String :=
  ⟨s.data.map lowerChar⟩

/-- `REDACT_KEYS = {"password", "token", "api_key", "secret", "authorization"}`
from client.py line 18. -/
def REDACT_KEYS : List String :=
  ["password", "token", "api_key", "secret", "authorization"]

/-- The test `str(k).lower() in REDACT_KEYS` from client.py line 29. -/
def sensitiveKey (k : String) : Bool :=
  decide (lowerStr k ∈ REDACT_KEYS)

/-- The mask string written in place of sensitive values (client.py line 30). -/
def maskJ : J := .jstr "***REDACTED***"

mutual
/-- Embedding of `redact` (client.py lines 21-36): recursively walks
dicts and lists, replacing any value sitting under a sensitive key by the
mask and leaving other scalars untouched. -/
def redact : J → J
  | .jobj fields => .jobj (redactFields fields)
  | .jarr xs => .jarr (redactList xs)
  | x => x

/-- The dict branch of `redact`: the loop `for k, v in obj.items()` of
client.py lines 28-32. -/
def redactFields : List (String × J) → List (String × J)
  | [] => []
  | (k, v) :: rest =>
    (k, if sensitiveKey k then maskJ else redact v) :: redactFields rest

/-- The list branch of `redact`: `[redact(x) for x in obj]` of
client.py line 35. -/
def redactList : List J → List J
  | [] => []
  | x :: rest => redact x :: redactList rest
end

mutual
/-- Specification-side description of redaction, written from the spec's
words: the output is a structurally identical copy of the input in which
every map entry under a sensitive key carries the mask, every other map
value and every sequence element is related recursively, and every scalar
is returned unchanged. -/
inductive RedactedOf : J → J → Prop where
  | null : RedactedOf .jnull .jnull
  | bool (b : Bool) : RedactedOf (.jbool b) (.jbool b)
  | num (n : Int) : RedactedOf (.jnum n) (.jnum n)
  | str (s : String) : RedactedOf (.jstr s) (.jstr s)
  | arr {xs ys : List J} : RedactedSeq xs ys →
      RedactedOf (.jarr xs) (.jarr ys)
  | obj {fs gs : List (String × J)} : RedactedMap fs gs →
      RedactedOf (.jobj fs) (.jobj gs)

/-- Element-wise redaction of a sequence (spec: "every sequence element is
replaced by its own redaction recursively"). -/
inductive RedactedSeq : List J → List J → Prop where
  | nil : RedactedSeq [] []
  | cons {x y : J} {xs ys : List J} : RedactedOf x y → RedactedSeq xs ys →
      RedactedSeq (x :: xs) (y :: ys)

/-- Entry-wise redaction of a map: keys are preserved, values under a
sensitive key (lowercased) become the mask, other values are redacted
recursively. -/
inductive RedactedMap : List (String × J) → List (String × J) → Prop where
  | nil : RedactedMap [] []
  | consSensitive {k : String} {v : J} {fs gs : List (String × J)} :
      sensitiveKey k = true → RedactedMap fs gs →
      RedactedMap ((k, v) :: fs) ((k, maskJ) :: gs)
  | consOther {k : String} {v w : J} {fs gs : List (String × J)} :
      sensitiveKey k = false → RedactedOf v w → RedactedMap fs gs →
      RedactedMap ((k, v) :: fs) ((k, w) :: gs)
end

/-- `list(dict.fromkeys(...))`: de-duplication keeping the first occurrence
of each element, preserving order (client.py lines 116 and 133). -/
def dedupFirstAux (seen : List String) : List String → List String
  | [] => []
  | x :: rest =>
    if x ∈ seen then dedupFirstAux seen rest
    else x :: dedupFirstAux (x :: seen) rest

/-- De-duplicate a tag list keeping first occurrences. -/
def dedupFirst (l : List String) : List String := dedupFirstAux [] l

/-- Byte size of the queue file whose lines are `lines`: each line is
written as its UTF-8 bytes followed by one newline byte (every write in
the source appends or rewrites newline-terminated lines), so `st_size`
is the sum of the line sizes plus one per line. -/
def fileBytes (lines : List String) : Nat :=
  (lines.map (fun l => l.utf8ByteSize + 1)).sum

/-- A send request: the target path and the JSON payload of one POST. -/
abbrev SendReq := String × J

/-- Client-side delivery state: the durable queue file (`none` when the
file does not exist) and the ordered log of every network send attempted,
used to reason about how many delivery attempts a call makes. -/
structure DState where
  file : Option (List String)
  attempts : List SendReq

section Delivery

variable (net : SendReq → Bool)
variable (parse : String → Option SendReq)
variable (dumpRec : SendReq → Int → String)

/-- Embedding of `_post_raw` (client.py lines 224-226): one network POST;
the attempt is logged and the oracle `net` decides whether it succeeds
(2xx) or fails (timeout, connection error, or `raise_for_status`). -/
def postRaw (st : DState) (r : SendReq) : DState × Bool :=
  ({ st with attempts := st.attempts ++ [r] }, net r)

/-- The `for line in lines` loop of `flush` (client.py lines 204-214):
walks the queued lines in order carrying the count of successful sends;
once `sent >= limit` every further line is kept; a line that fails to
parse (`parse` returns `none`, modelling the `json.loads`/key errors) or
whose re-delivery fails is kept; a line delivered successfully is dropped
and counts toward the limit. Returns the remaining lines and the state
with the attempts made. -/
def flushLoop (limit : Nat) : List String → Nat → DState → List String × DState
  | [], _, st => ([], st)
  | l :: ls, sent, st =>
    if sent ≥ limit then
      let r := flushLoop limit ls sent st
      (l :: r.1, r.2)
    else
      match parse l with
      | none =>
        let r := flushLoop limit ls sent st
        (l :: r.1, r.2)
      | some req =>
        let p := postRaw net st req
        if p.2 then flushLoop limit ls (sent + 1) p.1
        else
          let r := flushLoop limit ls sent p.1
          (l :: r.1, r.2)

/-- Embedding of `flush(limit)` (client.py lines 191-222) in the
fault-free filesystem case: no file or an empty file is left untouched;
otherwise the loop computes the remaining lines, the file is deleted when
nothing remains and rewritten to exactly the remaining lines otherwise. -/
def flushD (st : DState) (limit : Nat) : DState :=
  match st.file with
  | none => st
  | some lines =>
    if lines.isEmpty then st
    else
      let r := flushLoop net parse limit lines 0 st
      if r.1.isEmpty then { r.2 with file := none }
      else { r.2 with file := some r.1 }

/-- Embedding of `_enqueue` (client.py lines 168-189) in the fault-free
filesystem case: if the file exists and its byte size exceeds the cap,
only the newer half of the lines (`lines[len(lines) // 2:]`) is kept;
then the serialized record `dumpRec req now` (the model of
`json.dumps({"path": ..., "payload": ..., "queued_at_ms": now})`) is
appended as one line. -/
def enqueueD (st : DState) (req : SendReq) (now : Int) (cap : Nat) : DState :=
  let lines := st.file.getD []
  let kept :=
    if st.file.isSome ∧ fileBytes lines > cap then
      lines.drop (lines.length / 2)
    else lines
  { st with file := some (kept ++ [dumpRec req now]) }

/-- Embedding of `_post` (client.py lines 228-238): best-effort
`flush(limit=25)`, then one direct send of the new record; on failure the
record is enqueued and the call "raises" (second component `true`)
exactly when `fail_open` is off. -/
def postD (st : DState) (req : SendReq) (now : Int) (cap : Nat)
    (failOpen : Bool) : DState × Bool :=
  let st1 := flushD net parse st 25
  let p := postRaw net st1 req
  if p.2 then (p.1, false)
  else
    let st3 := enqueueD dumpRec p.1 req now cap
    (st3, !failOpen)

/-- The payload dict built by `start_execution` (client.py lines 110-117). -/
def executionPayload (execution_id name app : String) (created : Int)
    (metadata : List (String × J)) (tags defaultTags : List String) : J :=
  .jobj
    [("execution_id", .jstr execution_id),
     ("name", .jstr name),
     ("app", .jstr app),
     ("created_at_ms", .jnum created),
     ("metadata", redact (.jobj metadata)),
     ("tags", .jarr ((dedupFirst (tags ++ defaultTags)).map .jstr))]

/-- Embedding of `start_execution` (client.py lines 103-119): builds the
payload, posts it, and returns the generated `execution_id` — or the
propagated delivery failure (`Except.error`) when `_post` raised. -/
def startExecution (st : DState) (execution_id name app : String)
    (created now : Int) (metadata : List (String × J))
    (tags defaultTags : List String) (cap : Nat) (failOpen : Bool) :
    DState × Except Unit String :=
  let payload := executionPayload execution_id name app created metadata tags defaultTags
  let p := postD net parse dumpRec st ("/executions", payload) now cap failOpen
  (p.1, if p.2 then .error () else .ok execution_id)

/-- What the `step` context manager lets the enclosed block do before the
scope exits: set the output, the reasoning and the artifacts, extend the
tags, and possibly raise an exception carried as (type name, message). -/
structure StepBody where
  output : List (String × J)
  reasoning : String
  artifacts : List (String × J)
  tags : List String
  exc : Option (String × String)

/-- What propagates out of the `step` scope: the pipeline exception
re-raised by the bare `raise`, or the delivery exception escaping the
`_post` call in the `finally` block (fail-closed mode with a failed
send), which in Python supersedes the in-flight pipeline exception. -/
inductive Raised where
  | pipeline (ty msg : String)
  | delivery
  deriving Repr, DecidableEq

/-- `rec.error` as set by the `except` clause (client.py line 142). -/
def errorJ (exc : Option (String × String)) : Option J :=
  exc.map fun e => .jobj [("type", .jstr e.1), ("message", .jstr e.2)]

/-- The f-string path `f"/executions/{execution_id}/steps"`. -/
def stepPath (execution_id : String) : String :=
  "/executions/" ++ execution_id ++ "/steps"

/-- The payload dict built in the `finally` block of `step`
(client.py lines 147-161). -/
def stepPayload (step_id execution_id name status : String)
    (started ended : Int) (tags : List String)
    (input output : List (String × J)) (reasoning : String)
    (artifacts : List (String × J)) (error : Option J) : J :=
  .jobj
    [("step_id", .jstr step_id),
     ("execution_id", .jstr execution_id),
     ("name", .jstr name),
     ("status", .jstr status),
     ("started_at_ms", .jnum started),
     ("ended_at_ms", .jnum ended),
     ("duration_ms", .jnum (ended - started)),
     ("tags", .jarr (tags.map .jstr)),
     ("input", redact (.jobj input)),
     ("output", redact (.jobj output)),
     ("reasoning", .jstr reasoning),
     ("artifacts", redact (.jobj artifacts)),
     ("error", match error with | none => .jnull | some e => redact e)]

/-- Embedding of the `step` context manager (client.py lines 121-163):
status is SUCCESS on normal exit and ERROR with captured type/message on
an exception; the `finally` block stamps `ended_at_ms` (`tEnd`), builds
the redacted payload and posts it once; the scope then re-raises the
pipeline exception, unless the `_post` itself raised, in which case that
delivery exception propagates instead. Returns the finished payload, the
new delivery state and what (if anything) is raised to the caller. -/
def stepRun (st : DState) (execution_id step_id name : String)
    (input : List (String × J)) (body : StepBody)
    (tStart tEnd now : Int) (cap : Nat) (failOpen : Bool) :
    J × DState × Option Raised :=
  let status := match body.exc with | none => "SUCCESS" | some _ => "ERROR"
  let payload := stepPayload step_id execution_id name status tStart tEnd
    body.tags input body.output body.reasoning body.artifacts (errorJ body.exc)
  let p :=
    postD net parse dumpRec st (stepPath execution_id, payload) now cap failOpen
  (payload, p.1,
    if p.2 then some .delivery
    else body.exc.map (fun e => .pipeline e.1 e.2))

end Delivery

/-- Field lookup in a JSON object (first occurrence; the payload dicts
built by the client have pairwise distinct keys). -/
def jLookup (v : J) (k : String) : Option J :=
  match v with
  | .jobj fs => (fs.find? (fun p => p.1 == k)).map (·.2)
  | _ => none

/-! ## Collector API model (`apps/api/main.py`)

The SQLite tables become lists of rows; `INSERT OR REPLACE` on a primary
key deletes the conflicting row and appends the new one.  Structured
fields are stored as the structured values themselves; where the API
serializes them to text blobs (`json.dumps`) the serializer is taken as a
parameter `dumps`. -/

/-- A row of the `executions` table. -/
structure ExecRow where
  execution_id : String
  name : String
  app : String
  created_at_ms : Int
  metadata : List (String × J)
  deriving Repr

/-- A row of the `steps` table. -/
structure StepRow where
  step_id : String
  execution_id : String
  name : String
  status : String
  started_at_ms : Int
  ended_at_ms : Int
  duration_ms : Int
  input : List (String × J)
  output : List (String × J)
  reasoning : String
  artifacts : List (String × J)
  error : Option J
  deriving Repr

/-- The collector store: both tables, rows in physical (insertion) order. -/
structure Store where
  executions : List ExecRow
  steps : List StepRow
  deriving Repr

/-- The request body of `POST /executions/{execution_id}/steps` (pydantic
model `StepCreate`, main.py lines 81-93): note it carries its own
`execution_id` field. -/
structure StepCreate where
  step_id : String
  execution_id : String
  name : String
  status : String
  started_at_ms : Int
  ended_at_ms : Int
  duration_ms : Int
  input : List (String × J)
  output : List (String × J)
  reasoning : String
  artifacts : List (String × J)
  error : Option J
  deriving Repr

/-- Embedding of `create_execution` (main.py lines 96-105):
`INSERT OR REPLACE` keyed on the `execution_id` primary key — the
conflicting row (if any) is deleted and the new row inserted. -/
def create_execution (st : Store) (e : ExecRow) : Store :=
  { st with executions :=
      st.executions.filter (fun r => r.execution_id != e.execution_id) ++ [e] }

/-- The row stored by `add_step`: every column comes from the request
body except `execution_id`, which is the path parameter
(main.py lines 111-123). -/
def stepRowOf (execution_id : String) (s : StepCreate) : StepRow :=
  { step_id := s.step_id
    execution_id := execution_id
    name := s.name
    status := s.status
    started_at_ms := s.started_at_ms
    ended_at_ms := s.ended_at_ms
    duration_ms := s.duration_ms
    input := s.input
    output := s.output
    reasoning := s.reasoning
    artifacts := s.artifacts
    error := s.error }

/-- Embedding of `add_step` (main.py lines 108-126): `INSERT OR REPLACE`
keyed on the `step_id` primary key; the stored `execution_id` is the path
parameter, not the body field. -/
def add_step (st : Store) (execution_id : String) (s : StepCreate) : Store :=
  { st with steps :=
      st.steps.filter (fun r => r.step_id != s.step_id) ++ [stepRowOf execution_id s] }

/-- `ORDER BY started_at_ms ASC` comparison on step rows. -/
def stepLeStarted (a b : StepRow) : Prop := a.started_at_ms ≤ b.started_at_ms

instance : DecidableRel stepLeStarted := fun a b =>
  inferInstanceAs (Decidable (a.started_at_ms ≤ b.started_at_ms))

instance : IsTotal StepRow stepLeStarted := ⟨fun a b => le_total _ _⟩

instance : IsTrans StepRow stepLeStarted := ⟨fun _ _ _ h1 h2 => le_trans h1 h2⟩

/-- Embedding of `get_execution` (main.py lines 149-189): the execution
row with the given id (`fetchone` on the primary key) together with its
steps ordered by `started_at_ms` ascending; `none` models the
`{"error": "not_found"}` response. -/
def get_execution (st : Store) (execution_id : String) :
    Option (ExecRow × List StepRow) :=
  match st.executions.find? (fun r => r.execution_id == execution_id) with
  | none => none
  | some e =>
    some (e, List.insertionSort stepLeStarted
      (st.steps.filter (fun s => s.execution_id == execution_id)))

/-- Substring test on character lists: `needle` occurs contiguously in
`hay`. -/
def containsSub (needle hay : List Char) : Bool :=
  needle.isPrefixOf hay ||
    match hay with
    | [] => false
    | _ :: t => containsSub needle t

/-- SQLite `LIKE` pattern matching over character lists (no ESCAPE
clause, as in the source query): `%` matches any sequence of zero or
more characters — the pattern after it must match some suffix of the
text — `_` matches exactly one character, and any other pattern
character matches itself. -/
def likeChars : List Char → List Char → Bool
  | [], hay => hay.isEmpty
  | p :: ps, hay =>
    if p = '%' then
      hay.tails.any (likeChars ps)
    else
      match hay with
      | [] => false
      | h :: t => if p = '_' then likeChars ps t else p == h && likeChars ps t

/-- The SQL `column LIKE '%q%'` test of the search query, with the
pattern built as `f"%{q}%"` (main.py line 195): SQLite `LIKE` is ASCII
case-insensitive, so both sides are lowercased — the one consistent
choice of case sensitivity in this model — and `%`/`_` occurring inside
`q` keep their wildcard meaning. -/
def likeMatch (q hay : String) : Bool :=
  likeChars (lowerStr ("%" ++ q ++ "%")).data (lowerStr hay).data

/-- Specification-side occurrence test, following the claim's words:
`q` occurs as a substring of `hay`, under the same lowercased choice of
case sensitivity. -/
def substrOccurs (q hay : String) : Bool :=
  containsSub (lowerStr q).data (lowerStr hay).data

section Api

variable (dumps : List (String × J) → String)

/-- The WHERE clause of `search` (main.py lines 196-211) for one
execution: the query occurs in the execution's name or metadata blob, or
in the name, reasoning, input blob, output blob or artifacts blob of at
least one of its steps (the `LEFT JOIN` plus `OR` chain; a NULL column
never matches). -/
def execMatches (st : Store) (q : String) (e : ExecRow) : Bool :=
  likeMatch q e.name || likeMatch q (dumps e.metadata) ||
    st.steps.any (fun s =>
      s.execution_id == e.execution_id &&
        (likeMatch q s.name || likeMatch q s.reasoning ||
         likeMatch q (dumps s.input) || likeMatch q (dumps s.output) ||
         likeMatch q (dumps s.artifacts)))

/-- Specification-side matching predicate, following the claim's words:
`q` occurs as a plain substring of the execution's name or metadata
blob, or of the name, reasoning, input blob, output blob or artifacts
blob of at least one of its steps. -/
def substrMatches (st : Store) (q : String) (e : ExecRow) : Bool :=
  substrOccurs q e.name || substrOccurs q (dumps e.metadata) ||
    st.steps.any (fun s =>
      s.execution_id == e.execution_id &&
        (substrOccurs q s.name || substrOccurs q s.reasoning ||
         substrOccurs q (dumps s.input) || substrOccurs q (dumps s.output) ||
         substrOccurs q (dumps s.artifacts)))

/-- `ORDER BY created_at_ms DESC` comparison on execution rows. -/
def execGeCreated (a b : ExecRow) : Prop := b.created_at_ms ≤ a.created_at_ms

instance : DecidableRel execGeCreated := fun a b =>
  inferInstanceAs (Decidable (b.created_at_ms ≤ a.created_at_ms))

instance : IsTotal ExecRow execGeCreated := ⟨fun a b => le_total _ _⟩

instance : IsTrans ExecRow execGeCreated := ⟨fun _ _ _ h1 h2 => le_trans h2 h1⟩

/-- Embedding of `GET /search` (main.py lines 192-223): the executions
matching the query (each at most once — `SELECT DISTINCT` over rows that
include the primary key), ordered by `created_at_ms` descending, limited
to `limit`. -/
def search (st : Store) (q : String) (limit : Nat) : List ExecRow :=
  (List.insertionSort execGeCreated
    (st.executions.filter (execMatches dumps st q))).take limit

end Api

/-- Lexicographic (code-point) order on strings, the order Python's
`sorted` uses on `str`; stated on the character lists so that it is
computable by `decide`. -/
def strLe (a b : String) : Prop := a.data ≤ b.data

instance : DecidableRel strLe := fun a b =>
  inferInstanceAs (Decidable (a.data ≤ b.data))

instance : IsTotal String strLe := ⟨fun a b => le_total _ _⟩

instance : IsTrans String strLe := ⟨fun _ _ _ h1 h2 => le_trans h1 h2⟩

/-- `sorted(set(a_names) | set(b_names))`: the de-duplicated names in
lexicographic order (main.py line 236). -/
def sortedNames (names : List String) : List String :=
  List.insertionSort strLe names.dedup

/-- The dict comprehension `{s["name"]: s for s in steps}` of main.py
lines 233-234 as a name-to-step function: later assignments overwrite
earlier ones, so the last step with a given name wins. -/
def nameMap (steps : List StepRow) : String → Option StepRow :=
  steps.foldl (fun m s => fun n => if n == s.name then some s else m n)
    (fun _ => none)

/-- Specification-side description of the same mapping, from the spec's
words: the step with that name, the last such step winning when a name
repeats. -/
def lastNamed (steps : List StepRow) (n : String) : Option StepRow :=
  steps.reverse.find? (fun s => s.name == n)

/-- `(step or {}).get("output", {}).get("keywords")` (main.py lines
239-240): the `keywords` field nested under the step's output. -/
def keywordsOf (s : StepRow) : Option J :=
  (s.output.find? (fun p => p.1 == "keywords")).map (·.2)

/-- One comparison row of the diff result (main.py lines 246-258);
`none` is the explicit absence marker (`null` in the JSON response). -/
structure DiffRow where
  step : String
  a_status : Option String
  b_status : Option String
  a_duration_ms : Option Int
  b_duration_ms : Option Int
  a_keywords : Option J
  b_keywords : Option J
  a_reasoning : Option String
  b_reasoning : Option String
  deriving Repr

/-- The row built for one name in the sorted union (main.py lines 242-258). -/
def mkDiffRow (aSteps bSteps : List StepRow) (n : String) : DiffRow :=
  let sa := nameMap aSteps n
  let sb := nameMap bSteps n
  { step := n
    a_status := sa.map (·.status)
    b_status := sb.map (·.status)
    a_duration_ms := sa.map (·.duration_ms)
    b_duration_ms := sb.map (·.duration_ms)
    a_keywords := sa.bind keywordsOf
    b_keywords := sb.bind keywordsOf
    a_reasoning := sa.map (·.reasoning)
    b_reasoning := sb.map (·.reasoning) }

/-- Embedding of `GET /executions/{a}/diff/{b}` (main.py lines 226-260):
fetch both executions (`none` models the combined `{"error":
"not_found"}` when either is missing), then one comparison row per name
in the sorted union of the two sides' step names. -/
def diff (st : Store) (a b : String) :
    Option (ExecRow × ExecRow × List DiffRow) :=
  match get_execution st a, get_execution st b with
  | some (ea, aSteps), some (eb, bSteps) =>
    let names := sortedNames (aSteps.map (·.name) ++ bSteps.map (·.name))
    some (ea, eb, names.map (mkDiffRow aSteps bSteps))
  | _, _ => none

section FlushSpec

variable (net : SendReq → Bool)
variable (parse : String → Option SendReq)

/-- Specification-side description of which queued lines remain after
`flush`, written from the spec's words: re-delivery is attempted in file
order with a budget of successful sends; once the budget is exhausted
every further line remains; a line that does not parse or whose
re-delivery fails remains, in order; a successfully delivered line is
dropped and consumes one unit of budget. -/
def specRemaining : List String → Nat → List String
  | [], _ => []
  | l :: ls, budget =>
    if budget = 0 then l :: ls
    else
      match parse l with
      | none => l :: specRemaining ls budget
      | some r =>
        if net r then specRemaining ls (budget - 1)
        else l :: specRemaining ls budget

end FlushSpec

/-! ## Fault-injected queue operations (claim: queue operations never
raise into their caller)

`_enqueue` wraps its whole body in `try ... except Exception: return`
(client.py lines 169-189), and `flush` wraps everything after the
`p.exists()` check the same way (lines 196-222; `Path.exists` itself
reports OS errors as `False` rather than raising), with a further inner
`try`/`except` catching per-line parse and delivery errors.  Each
fallible filesystem primitive gets an injected-failure flag; a failure
carries the file state at the point it occurred. -/

/-- Injected filesystem failures for the queue file operations. -/
structure QFaults where
  mkdirFail : Bool
  statFail : Bool
  readFail : Bool
  writeFail : Bool
  appendFail : Bool
  unlinkFail : Bool
  deriving Repr

/-- The queue file's contents, `none` when the file does not exist. -/
abbrev FileT := Option (List String)

/-- The body of `_enqueue` inside the `try` (client.py lines 170-186):
`mkdir`, the size-cap check with eviction rewrite, then the append.  An
`Except.error` is an exception escaping the body, carrying the file as
already modified. -/
def enqueueBody (f : QFaults) (file : FileT) (line : String) (cap : Nat) :
    Except FileT FileT :=
  if f.mkdirFail then .error file
  else if f.statFail then .error file
  else
    let lines := file.getD []
    if file.isSome ∧ fileBytes lines > cap then
      if f.readFail then .error file
      else if f.writeFail then .error file
      else
        let kept := lines.drop (lines.length / 2)
        if f.appendFail then .error (some kept)
        else .ok (some (kept ++ [line]))
    else
      if f.appendFail then .error file
      else .ok (some (lines ++ [line]))

/-- `except Exception: return` — the caller observes a normal return
whether or not the body raised (the file is left as the body left it). -/
def recover (e : Except FileT FileT) : Except Unit FileT :=
  match e with
  | .ok w => .ok w
  | .error w => .ok w

/-- `_enqueue` as the caller observes it: the body with every escaping
exception swallowed. -/
def enqueueRun (f : QFaults) (file : FileT) (line : String) (cap : Nat) :
    Except Unit FileT :=
  recover (enqueueBody f file line cap)

section FaultyFlush

variable (net : SendReq → Bool)
variable (parse : String → Option SendReq)

/-- The body of `flush` inside its outer `try` (client.py lines 196-219):
read, the per-line loop (whose parse and delivery failures are caught by
the inner `try` and modelled by the `parse`/`net` oracles), then rewrite
or delete.  The `p.exists()` check precedes the `try`, but `Path.exists`
does not raise. -/
def flushBody (f : QFaults) (file : FileT) (limit : Nat) :
    Except FileT FileT :=
  match file with
  | none => .ok none
  | some lines =>
    if f.readFail then .error file
    else if lines.isEmpty then .ok file
    else
      let rem := (flushLoop net parse limit lines 0 ⟨file, []⟩).1
      if rem.isEmpty then
        if f.unlinkFail then .error file else .ok none
      else
        if f.writeFail then .error file else .ok (some rem)

/-- `flush` as the caller observes it: the body with every escaping
exception swallowed. -/
def flushRun (f : QFaults) (file : FileT) (limit : Nat) :
    Except Unit FileT :=
  recover (flushBody net parse f file limit)

end FaultyFlush

/-! ## Concrete oracles used to instantiate witnesses -/

/-- A collector that rejects every send (outage). -/
def alwaysFail : SendReq → Bool := fun _ => false

/-- A collector that accepts every send. -/
def alwaysOk : SendReq → Bool := fun _ => true

/-- A line parser that fails on every line. -/
def noParse : String → Option SendReq := fun _ => none

/-- A fixed serialization of queue records. -/
def dumpConst : SendReq → Int → String := fun _ _ => "queued"

/-- A line parser that parses every line to a send request of that line. -/
def parseSelf : String → Option SendReq := fun l => some (l, .jnull)

/-- A fixed serializer for stored structured blobs. -/
def dumpsEmpty : List (String × J) → String := fun _ => "{}"

/-! ## Sample data used to instantiate witnesses -/

/-- Sample execution "A". -/
def execA : ExecRow := ⟨"A", "alpha-run", "app", 10, []⟩

/-- Sample execution "B". -/
def execB : ExecRow := ⟨"B", "beta-run", "app", 20, []⟩

/-- Step "x" of execution "A". -/
def stepX : StepRow := ⟨"s1", "A", "x", "SUCCESS", 1, 2, 1, [], [], "", [], none⟩

/-- Step "y" of execution "A". -/
def stepY : StepRow := ⟨"s2", "A", "y", "SUCCESS", 3, 4, 1, [], [], "", [], none⟩

/-- Step "y" of execution "B". -/
def stepY2 : StepRow := ⟨"s3", "B", "y", "SUCCESS", 1, 2, 1, [], [], "", [], none⟩

/-- Step "z" of execution "B". -/
def stepZ : StepRow := ⟨"s4", "B", "z", "ERROR", 3, 4, 1, [], [], "", [], some .jnull⟩

/-- A sample store holding executions "A" (steps x, y) and "B" (steps y, z). -/
def sampleStore : Store := ⟨[execA, execB], [stepX, stepY, stepY2, stepZ]⟩

/-! ## Theorems -/

theorem redactList_eq_map (xs : List J) : redactList xs = xs.map redact := by
  induction xs with
  | nil => rfl
  | cons x rest ih => simp [redactList, ih]

theorem redactFields_eq_map (fs : List (String × J)) :
    redactFields fs
      = fs.map (fun p => (p.1, if sensitiveKey p.1 then maskJ else redact p.2)) := by
  induction fs with
  | nil => rfl
  | cons p rest ih => cases p; simp [redactFields, ih]

theorem redactList_spec (xs : List J)
    (ih : ∀ x ∈ xs, RedactedOf x (redact x)) :
    RedactedSeq xs (redactList xs) := by
  induction xs with
  | nil => exact .nil
  | cons x rest ihr =>
    exact .cons (ih x (by simp)) (ihr fun y hy => ih y (by simp [hy]))

theorem redactFields_spec (fs : List (String × J))
    (ih : ∀ p ∈ fs, RedactedOf p.2 (redact p.2)) :
    RedactedMap fs (redactFields fs) := by
  induction fs with
  | nil => exact .nil
  | cons p rest ihr =>
    cases p with
    | mk k v =>
      by_cases hk : sensitiveKey k
      · rw [show redactFields ((k, v) :: rest)
            = (k, maskJ) :: redactFields rest by simp [redactFields, hk]]
        exact .consSensitive hk (ihr fun q hq => ih q (by simp [hq]))
      · rw [show redactFields ((k, v) :: rest)
            = (k, redact v) :: redactFields rest by simp [redactFields, hk]]
        exact .consOther (by simpa using hk) (ih (k, v) (by simp))
          (ihr fun q hq => ih q (by simp [hq]))

/-- C3: `redact` satisfies the spec's redaction contract on every
JSON-like value: the result is a structurally identical copy in which
every map value under a key whose lowercase form is in the sensitive set
is the mask string, every other map value and every sequence element is
redacted recursively (at arbitrary depth), and every scalar passes
through unchanged.  (The embedding is pure, so the input value is by
construction not mutated.) -/
theorem redact_meets_spec (v : J) : RedactedOf v (redact v) := by
  cases v with
  | jnull => exact .null
  | jbool b => exact .bool b
  | jnum n => exact .num n
  | jstr s => exact .str s
  | jarr xs =>
    rw [show redact (.jarr xs) = .jarr (redactList xs) from rfl]
    exact .arr (redactList_spec xs (fun x hx => redact_meets_spec x))
  | jobj fs =>
    rw [show redact (.jobj fs) = .jobj (redactFields fs) from rfl]
    exact .obj (redactFields_spec fs (fun p hp => redact_meets_spec p.2))
termination_by sizeOf v
decreasing_by
  · have := List.sizeOf_lt_of_mem hx
    simp only [J.jarr.sizeOf_spec]
    omega
  · have h1 := List.sizeOf_lt_of_mem hp
    have h2 : sizeOf p.2 < sizeOf p := by
      cases p with
      | mk a b => simp only [Prod.mk.sizeOf_spec]; omega
    simp only [J.jobj.sizeOf_spec]
    omega

/-- C5: `_enqueue` on an existing queue file evicts exactly the oldest
half (by count and position) of the stored lines when the file's byte
size exceeds the cap — the newer half is preserved intact and in order —
and drops nothing when the size is within the cap; in both cases the new
serialized record is then appended as one line. -/
theorem enqueue_evicts_oldest_half (dumpRec : SendReq → Int → String)
    (st : DState) (req : SendReq) (now : Int) (cap : Nat) (lines : List String)
    (hfile : st.file = some lines) :
    (fileBytes lines > cap →
      (enqueueD dumpRec st req now cap).file
          = some (lines.drop (lines.length / 2) ++ [dumpRec req now])
        ∧ lines = lines.take (lines.length / 2) ++ lines.drop (lines.length / 2)
        ∧ (lines.take (lines.length / 2)).length = lines.length / 2)
    ∧ (¬ fileBytes lines > cap →
        (enqueueD dumpRec st req now cap).file = some (lines ++ [dumpRec req now])) := by
  constructor
  · intro h
    refine ⟨?_, (List.take_append_drop _ _).symm, ?_⟩
    · simp [enqueueD, hfile, h]
    · have := Nat.div_le_self lines.length 2
      simp [List.length_take]
      omega
  · intro h
    simp [enqueueD, hfile, h]

theorem enqueue_evicts_oldest_half_witness :
    (enqueueD dumpConst ⟨some ["aa", "bb"], []⟩ ("/e", J.jnull) 7 3).file
      = some (["bb"] ++ [dumpConst ("/e", J.jnull) 7]) := by
  have h := enqueue_evicts_oldest_half dumpConst ⟨some ["aa", "bb"], []⟩
    ("/e", J.jnull) 7 3 ["aa", "bb"] rfl
  have h2 := (h.1 (by decide)).1
  simpa using h2


theorem filter_upsert_exec (l : List ExecRow) (e : ExecRow) :
    ((l.filter (fun r => r.execution_id != e.execution_id)) ++ [e]).filter
      (fun r => r.execution_id == e.execution_id) = [e] := by
  have h1 : ((l.filter (fun r => r.execution_id != e.execution_id)).filter
      (fun r => r.execution_id == e.execution_id)) = [] := by
    rw [List.filter_eq_nil_iff]
    intro x hx
    have := (List.mem_filter.mp hx).2
    simp only [bne] at this
    cases h : x.execution_id == e.execution_id
    · simp
    · rw [h] at this; simp at this
  rw [List.filter_append, h1]
  simp

theorem filter_upsert_step (l : List StepRow) (row : StepRow) :
    ((l.filter (fun r => r.step_id != row.step_id)) ++ [row]).filter
      (fun r => r.step_id == row.step_id) = [row] := by
  have h1 : ((l.filter (fun r => r.step_id != row.step_id)).filter
      (fun r => r.step_id == row.step_id)) = [] := by
    rw [List.filter_eq_nil_iff]
    intro x hx
    have := (List.mem_filter.mp hx).2
    simp only [bne] at this
    cases h : x.step_id == row.step_id
    · simp
    · rw [h] at this; simp at this
  rw [List.filter_append, h1]
  simp

theorem find?_upsert_exec (l : List ExecRow) (e : ExecRow) :
    ((l.filter (fun r => r.execution_id != e.execution_id)) ++ [e]).find?
      (fun r => r.execution_id == e.execution_id) = some e := by
  rw [List.find?_append]
  have h1 : (l.filter (fun r => r.execution_id != e.execution_id)).find?
      (fun r => r.execution_id == e.execution_id) = none := by
    rw [List.find?_eq_none]
    intro x hx
    have := (List.mem_filter.mp hx).2
    simp only [bne] at this
    cases h : x.execution_id == e.execution_id
    · simp
    · rw [h] at this; simp at this
  rw [h1]
  simp [List.find?]

/-- C6: both collector writes are idempotent upserts keyed on their
respective primary ids.  After writing two executions with the same
`execution_id` (in either role: the statement quantifies over both
rows), exactly one row with that id exists — the later write — and
fetching the execution returns the later write's fields; likewise two
step writes with the same `step_id` leave exactly the later step row.
Both operations are total functions: re-sending an existing id never
errors. -/
theorem upsert_latest_wins (st : Store) (e1 e2 : ExecRow) (p1 p2 : String)
    (s1 s2 : StepCreate)
    (he : e1.execution_id = e2.execution_id) (hs : s1.step_id = s2.step_id) :
    ((create_execution (create_execution st e1) e2).executions.filter
        (fun r => r.execution_id == e2.execution_id)) = [e2]
    ∧ ((get_execution (create_execution (create_execution st e1) e2)
        e2.execution_id).map Prod.fst = some e2)
    ∧ ((add_step (add_step st p1 s1) p2 s2).steps.filter
        (fun r => r.step_id == s2.step_id)) = [stepRowOf p2 s2] := by
  refine ⟨?_, ?_, ?_⟩
  · exact filter_upsert_exec _ e2
  · rw [get_execution,
      show (create_execution (create_execution st e1) e2).executions
        = ((create_execution st e1).executions.filter
            (fun r => r.execution_id != e2.execution_id)) ++ [e2] from rfl,
      find?_upsert_exec]
    rfl
  · have h3 := filter_upsert_step (add_step st p1 s1).steps (stepRowOf p2 s2)
    rw [show (add_step (add_step st p1 s1) p2 s2).steps
        = ((add_step st p1 s1).steps.filter
            (fun r => r.step_id != (stepRowOf p2 s2).step_id))
          ++ [stepRowOf p2 s2] from rfl]
    exact h3

theorem upsert_latest_wins_witness :
    (get_execution
        (create_execution (create_execution ⟨[], []⟩ ⟨"E", "n1", "a", 1, []⟩)
          ⟨"E", "n2", "a", 2, []⟩) "E").map Prod.fst
      = some ⟨"E", "n2", "a", 2, []⟩ := by
  have h := upsert_latest_wins ⟨[], []⟩ ⟨"E", "n1", "a", 1, []⟩
    ⟨"E", "n2", "a", 2, []⟩ "P1" "P2"
    ⟨"S", "E", "n", "SUCCESS", 0, 1, 1, [], [], "", [], none⟩
    ⟨"S", "E", "n", "ERROR", 0, 1, 1, [], [], "", [], none⟩
    rfl rfl
  exact h.2.1

/-- C10: `add_step` stores the step under the path's `execution_id`,
ignoring the `execution_id` field of the request body: the call's result
does not depend on that body field at all, the stored row carries the
path id and sits last in the table, and when the path's execution exists
the stored step is returned by fetching that execution. -/
theorem add_step_uses_path_id (st : Store) (pid x : String) (b : StepCreate)
    (e : ExecRow)
    (hfound : st.executions.find? (fun r => r.execution_id == pid) = some e) :
    (add_step st pid b = add_step st pid { b with execution_id := x })
    ∧ ((add_step st pid b).steps.getLast? = some (stepRowOf pid b)
        ∧ (stepRowOf pid b).execution_id = pid)
    ∧ (∃ steps, get_execution (add_step st pid b) pid = some (e, steps)
        ∧ stepRowOf pid b ∈ steps) := by
  refine ⟨rfl, ⟨?_, rfl⟩, ?_⟩
  · simp [add_step]
  · refine ⟨List.insertionSort stepLeStarted
      ((add_step st pid b).steps.filter (fun s => s.execution_id == pid)), ?_, ?_⟩
    · rw [get_execution,
        show (add_step st pid b).executions = st.executions from rfl, hfound]
    · apply (List.perm_insertionSort stepLeStarted _).mem_iff.mpr
      apply List.mem_filter.mpr
      refine ⟨?_, by simp [stepRowOf]⟩
      simp [add_step]

theorem add_step_uses_path_id_witness :
    ∃ steps,
      get_execution
          (add_step ⟨[⟨"E", "n", "a", 1, []⟩], []⟩ "E"
            ⟨"S", "OTHER", "nm", "SUCCESS", 0, 1, 1, [], [], "", [], none⟩) "E"
        = some (⟨"E", "n", "a", 1, []⟩, steps)
      ∧ stepRowOf "E" ⟨"S", "OTHER", "nm", "SUCCESS", 0, 1, 1, [], [], "", [], none⟩
          ∈ steps := by
  have h := add_step_uses_path_id ⟨[⟨"E", "n", "a", 1, []⟩], []⟩ "E" "E2"
    ⟨"S", "OTHER", "nm", "SUCCESS", 0, 1, 1, [], [], "", [], none⟩
    ⟨"E", "n", "a", 1, []⟩ rfl
  exact h.2.2

/-- C9: the durable-queue operations never raise into their caller: for
every combination of injected filesystem faults, every collector
behaviour and every queue-file state, both `_enqueue` and `flush` return
normally (the body's exception, when any, is swallowed by the
`except Exception` handler wrapping it). -/
theorem queue_ops_never_raise (net : SendReq → Bool)
    (parse : String → Option SendReq) (f : QFaults) (file : FileT)
    (line : String) (cap limit : Nat) :
    (∃ w, enqueueRun f file line cap = .ok w)
    ∧ (∃ w, flushRun net parse f file limit = .ok w) := by
  constructor
  · cases h : enqueueBody f file line cap with
    | ok w => exact ⟨w, by simp [enqueueRun, recover, h]⟩
    | error w => exact ⟨w, by simp [enqueueRun, recover, h]⟩
  · cases h : flushBody net parse f file limit with
    | ok w => exact ⟨w, by simp [flushRun, recover, h]⟩
    | error w => exact ⟨w, by simp [flushRun, recover, h]⟩

theorem flushLoop_saturated (net : SendReq → Bool)
    (parse : String → Option SendReq) (limit : Nat) (ls : List String)
    (sent : Nat) (st : DState) (h : sent ≥ limit) :
    flushLoop net parse limit ls sent st = (ls, st) := by
  induction ls with
  | nil => simp [flushLoop]
  | cons l t ih => simp [flushLoop, h, ih]

theorem flushLoop_fst (net : SendReq → Bool)
    (parse : String → Option SendReq) (limit : Nat) :
    ∀ (ls : List String) (sent : Nat) (st : DState),
    (flushLoop net parse limit ls sent st).1
      = specRemaining net parse ls (limit - sent) := by
  intro ls
  induction ls with
  | nil => intro sent st; rfl
  | cons l t ih =>
    intro sent st
    by_cases h : sent ≥ limit
    · have h0 : limit - sent = 0 := by omega
      rw [show flushLoop net parse limit (l :: t) sent st
          = (l :: (flushLoop net parse limit t sent st).1,
             (flushLoop net parse limit t sent st).2) by simp [flushLoop, h]]
      rw [flushLoop_saturated net parse limit t sent st h]
      simp [specRemaining, h0]
    · have h0 : ¬ limit - sent = 0 := by omega
      have harith : limit - (sent + 1) = limit - sent - 1 := by omega
      cases hp : parse l with
      | none => simp [flushLoop, specRemaining, h, h0, hp, ih]
      | some r =>
        cases hn : net r with
        | true =>
          simp [flushLoop, specRemaining, h, h0, hp, postRaw, hn, ih, harith]
        | false =>
          simp [flushLoop, specRemaining, h, h0, hp, postRaw, hn, ih]

theorem specRemaining_sublist (net : SendReq → Bool)
    (parse : String → Option SendReq) :
    ∀ (ls : List String) (budget : Nat),
    (specRemaining net parse ls budget).Sublist ls := by
  intro ls
  induction ls with
  | nil => intro b; simp [specRemaining]
  | cons l t ih =>
    intro b
    by_cases hb : b = 0
    · simp [specRemaining, hb]
    · cases hp : parse l with
      | none =>
        rw [show specRemaining net parse (l :: t) b
            = l :: specRemaining net parse t b by simp [specRemaining, hb, hp]]
        exact (ih b).cons₂ l
      | some r =>
        cases hn : net r with
        | true =>
          rw [show specRemaining net parse (l :: t) b
              = specRemaining net parse t (b - 1) by
                simp [specRemaining, hb, hp, hn]]
          exact (ih (b - 1)).cons l
        | false =>
          rw [show specRemaining net parse (l :: t) b
              = l :: specRemaining net parse t b by
                simp [specRemaining, hb, hp, hn]]
          exact (ih b).cons₂ l

theorem specRemaining_keeps_failed (net : SendReq → Bool)
    (parse : String → Option SendReq) :
    ∀ (ls : List String) (budget : Nat) (l : String), l ∈ ls →
    (parse l = none ∨ ∃ r, parse l = some r ∧ net r = false) →
    l ∈ specRemaining net parse ls budget := by
  intro ls
  induction ls with
  | nil => intro b l hl; simp at hl
  | cons x t ih =>
    intro b l hl hf
    by_cases hb : b = 0
    · simpa [specRemaining, hb] using hl
    · rcases List.mem_cons.mp hl with rfl | hmem
      · cases hp : parse l with
        | none =>
          rw [show specRemaining net parse (l :: t) b
              = l :: specRemaining net parse t b by simp [specRemaining, hb, hp]]
          exact List.mem_cons_self l _
        | some r =>
          have hn : net r = false := by
            rcases hf with h | ⟨r', hr', hn'⟩
            · rw [hp] at h; cases h
            · rw [hp] at hr'; cases hr'; exact hn'
          rw [show specRemaining net parse (l :: t) b
              = l :: specRemaining net parse t b by
                simp [specRemaining, hb, hp, hn]]
          exact List.mem_cons_self l _
      · cases hp : parse x with
        | none =>
          rw [show specRemaining net parse (x :: t) b
              = x :: specRemaining net parse t b by simp [specRemaining, hb, hp]]
          exact List.mem_cons_of_mem x (ih b l hmem hf)
        | some r =>
          cases hn : net r with
          | true =>
            rw [show specRemaining net parse (x :: t) b
                = specRemaining net parse t (b - 1) by
                  simp [specRemaining, hb, hp, hn]]
            exact ih (b - 1) l hmem hf
          | false =>
            rw [show specRemaining net parse (x :: t) b
                = x :: specRemaining net parse t b by
                  simp [specRemaining, hb, hp, hn]]
            exact List.mem_cons_of_mem x (ih b l hmem hf)

/-- C4: `flush(limit)` over an existing, non-empty queue file: re-delivery
runs in file order stopping after `limit` successful sends; the lines
that remain are exactly those described by `specRemaining` — lines that
fail to parse, lines whose re-delivery fails, and every line after the
limit is reached — kept in their original relative order (a sublist of
the file); successfully delivered lines are dropped; if nothing remains
the file is deleted, otherwise it is rewritten to exactly the remaining
lines. -/
theorem flush_file_result (net : SendReq → Bool)
    (parse : String → Option SendReq) (st : DState) (limit : Nat)
    (lines : List String) (hfile : st.file = some lines) (hne : lines ≠ []) :
    ((flushD net parse st limit).file
        = if (specRemaining net parse lines limit).isEmpty then none
          else some (specRemaining net parse lines limit))
    ∧ (specRemaining net parse lines limit).Sublist lines
    ∧ (∀ l ∈ lines,
        (parse l = none ∨ ∃ r, parse l = some r ∧ net r = false) →
        l ∈ specRemaining net parse lines limit) := by
  refine ⟨?_, specRemaining_sublist net parse lines limit,
    fun l hl hf => specRemaining_keeps_failed net parse lines limit l hl hf⟩
  have hie : lines.isEmpty = false := by
    cases lines with
    | nil => cases hne rfl
    | cons a t => rfl
  have hrem : (flushLoop net parse limit lines 0 st).1
      = specRemaining net parse lines limit := by
    rw [flushLoop_fst, Nat.sub_zero]
  have hmain : flushD net parse st limit
      = (if (specRemaining net parse lines limit).isEmpty
          then { (flushLoop net parse limit lines 0 st).2 with file := none }
          else { (flushLoop net parse limit lines 0 st).2 with
                   file := some (specRemaining net parse lines limit) }) := by
    rw [flushD, hfile]
    simp [hie, hrem]
  rw [hmain]
  by_cases h : (specRemaining net parse lines limit).isEmpty
  · simp [h]
  · simp [h]

theorem flush_file_result_witness :
    ((flushD alwaysOk parseSelf ⟨some ["a", "b", "c"], []⟩ 50).file
        = if (specRemaining alwaysOk parseSelf ["a", "b", "c"] 50).isEmpty then none
          else some (specRemaining alwaysOk parseSelf ["a", "b", "c"] 50))
    ∧ (specRemaining alwaysOk parseSelf ["a", "b", "c"] 50).Sublist ["a", "b", "c"]
    ∧ (∀ l ∈ ["a", "b", "c"],
        (parseSelf l = none ∨ ∃ r, parseSelf l = some r ∧ alwaysOk r = false) →
        l ∈ specRemaining alwaysOk parseSelf ["a", "b", "c"] 50) :=
  flush_file_result alwaysOk parseSelf ⟨some ["a", "b", "c"], []⟩ 50
    ["a", "b", "c"] rfl (by simp)

theorem enqueueD_appends (dumpRec : SendReq → Int → String) (st : DState)
    (req : SendReq) (now : Int) (cap : Nat) :
    ∃ pre, (enqueueD dumpRec st req now cap).file
      = some (pre ++ [dumpRec req now]) :=
  ⟨if st.file.isSome ∧ fileBytes (st.file.getD []) > cap then
      (st.file.getD []).drop ((st.file.getD []).length / 2)
    else st.file.getD [], rfl⟩

/-- C1: on a failed direct send in `_post` (timeout, connection error or
non-2xx, all modelled by the `net` oracle answering `false`), the record
is appended to the durable queue as the last line regardless of mode; the
call "raises" exactly when `fail_open` is off; `start_execution` against
such a collector still returns the generated execution id when fail-open
and propagates the failure when fail-closed — in both modes with the
serialized execution record queued. -/
theorem post_failure_queues_then_mode (net : SendReq → Bool)
    (parse : String → Option SendReq) (dumpRec : SendReq → Int → String)
    (st : DState) (req : SendReq) (now created : Int) (cap : Nat) (fo : Bool)
    (eid nm ap : String) (md : List (String × J)) (tg dtg : List String)
    (hnet : net req = false)
    (hnetE : net ("/executions",
        executionPayload eid nm ap created md tg dtg) = false) :
    (∃ pre, ((postD net parse dumpRec st req now cap fo).1).file
        = some (pre ++ [dumpRec req now]))
    ∧ ((postD net parse dumpRec st req now cap fo).2 = !fo)
    ∧ ((startExecution net parse dumpRec st eid nm ap created now
          md tg dtg cap fo).2
        = if fo then .ok eid else .error ())
    ∧ (∃ pre, ((startExecution net parse dumpRec st eid nm ap created now
          md tg dtg cap fo).1).file
        = some (pre ++
            [dumpRec ("/executions", executionPayload eid nm ap created md tg dtg)
              now])) := by
  have hpost : ∀ (st' : DState) (r : SendReq), net r = false →
      postD net parse dumpRec st' r now cap fo
        = (enqueueD dumpRec (postRaw net (flushD net parse st' 25) r).1 r now cap,
           !fo) := by
    intro st' r hr
    simp [postD, postRaw, hr]
  refine ⟨?_, ?_, ?_, ?_⟩
  · rw [hpost st req hnet]
    exact enqueueD_appends dumpRec _ req now cap
  · rw [hpost st req hnet]
  · rw [show (startExecution net parse dumpRec st eid nm ap created now
        md tg dtg cap fo).2
      = (if (postD net parse dumpRec st
            ("/executions", executionPayload eid nm ap created md tg dtg)
            now cap fo).2
          then .error () else .ok eid) from rfl]
    rw [hpost st _ hnetE]
    cases fo <;> rfl
  · rw [show (startExecution net parse dumpRec st eid nm ap created now
        md tg dtg cap fo).1
      = (postD net parse dumpRec st
          ("/executions", executionPayload eid nm ap created md tg dtg)
          now cap fo).1 from rfl]
    rw [hpost st _ hnetE]
    exact enqueueD_appends dumpRec _ _ now cap

theorem post_failure_queues_then_mode_witness :
    ((startExecution alwaysFail noParse dumpConst ⟨none, []⟩ "id1" "run" "app"
        5 6 [] [] [] 100 true).2 = .ok "id1")
    ∧ (∃ pre, ((startExecution alwaysFail noParse dumpConst ⟨none, []⟩ "id1"
        "run" "app" 5 6 [] [] [] 100 true).1).file
        = some (pre ++
            [dumpConst ("/executions", executionPayload "id1" "run" "app" 5 [] [] [])
              6])) := by
  have h := post_failure_queues_then_mode alwaysFail noParse dumpConst
    ⟨none, []⟩ ("/x", .jnull) 6 5 100 true "id1" "run" "app" [] [] [] rfl rfl
  exact ⟨by simpa using h.2.2.1, h.2.2.2⟩

theorem flushLoop_attempts (net : SendReq → Bool)
    (parse : String → Option SendReq) (limit : Nat) :
    ∀ (ls : List String) (sent : Nat) (st : DState),
    ∃ A, (flushLoop net parse limit ls sent st).2.attempts = st.attempts ++ A
      ∧ ∀ r ∈ A, ∃ l, parse l = some r := by
  intro ls
  induction ls with
  | nil => intro sent st; exact ⟨[], by simp [flushLoop], by simp⟩
  | cons l t ih =>
    intro sent st
    by_cases h : sent ≥ limit
    · obtain ⟨A, hA, hP⟩ := ih sent st
      refine ⟨A, ?_, hP⟩
      rw [show (flushLoop net parse limit (l :: t) sent st).2
          = (flushLoop net parse limit t sent st).2 by simp [flushLoop, h]]
      exact hA
    · cases hp : parse l with
      | none =>
        obtain ⟨A, hA, hP⟩ := ih sent st
        refine ⟨A, ?_, hP⟩
        rw [show (flushLoop net parse limit (l :: t) sent st).2
            = (flushLoop net parse limit t sent st).2 by simp [flushLoop, h, hp]]
        exact hA
      | some r =>
        cases hn : net r with
        | true =>
          obtain ⟨A, hA, hP⟩ := ih (sent + 1) (postRaw net st r).1
          refine ⟨r :: A, ?_, ?_⟩
          · rw [show (flushLoop net parse limit (l :: t) sent st).2
                = (flushLoop net parse limit t (sent + 1) (postRaw net st r).1).2 by
                  simp [flushLoop, h, hp, postRaw, hn]]
            rw [hA]
            simp [postRaw]
          · intro x hx
            rcases List.mem_cons.mp hx with rfl | hx
            · exact ⟨l, hp⟩
            · exact hP x hx
        | false =>
          obtain ⟨A, hA, hP⟩ := ih sent (postRaw net st r).1
          refine ⟨r :: A, ?_, ?_⟩
          · rw [show (flushLoop net parse limit (l :: t) sent st).2
                = (flushLoop net parse limit t sent (postRaw net st r).1).2 by
                  simp [flushLoop, h, hp, postRaw, hn]]
            rw [hA]
            simp [postRaw]
          · intro x hx
            rcases List.mem_cons.mp hx with rfl | hx
            · exact ⟨l, hp⟩
            · exact hP x hx

theorem flushD_attempts (net : SendReq → Bool)
    (parse : String → Option SendReq) (st : DState) (limit : Nat) :
    ∃ A, (flushD net parse st limit).attempts = st.attempts ++ A
      ∧ ∀ r ∈ A, ∃ l, parse l = some r := by
  cases hf : st.file with
  | none => exact ⟨[], by simp [flushD, hf], by simp⟩
  | some lines =>
    by_cases hie : lines.isEmpty
    · exact ⟨[], by simp [flushD, hf, hie], by simp⟩
    · obtain ⟨A, hA, hP⟩ := flushLoop_attempts net parse limit lines 0 st
      refine ⟨A, ?_, hP⟩
      rw [flushD, hf]
      simp only [hie, Bool.false_eq_true, if_neg (fun hc => hie hc)]
      by_cases hr : (flushLoop net parse limit lines 0 st).1.isEmpty
      · simp [hr, hA]
      · simp [hr, hA]

theorem postD_attempts (net : SendReq → Bool)
    (parse : String → Option SendReq) (dumpRec : SendReq → Int → String)
    (st : DState) (req : SendReq) (now : Int) (cap : Nat) (fo : Bool) :
    ∃ A, ((postD net parse dumpRec st req now cap fo).1).attempts
        = st.attempts ++ A ++ [req]
      ∧ ∀ r ∈ A, ∃ l, parse l = some r := by
  obtain ⟨A, hA, hP⟩ := flushD_attempts net parse st 25
  refine ⟨A, ?_, hP⟩
  cases hn : net req with
  | true => simp [postD, postRaw, hn, hA]
  | false => simp [postD, postRaw, hn, enqueueD, hA]

/-- C2 (amended): the `step` scope always finalizes the record — SUCCESS
with no error on normal exit, ERROR with the exception's type name and
message when the block raised — stamps `ended_at_ms` and the duration on
every exit path, redacts input, output, artifacts and error in the
submitted payload, and makes exactly one delivery attempt of the finished
record.  The pipeline exception is re-raised to the caller provided the
delivery attempt in the `finally` block does not itself raise, i.e.
whenever fail-open is set or the send succeeds; in fail-closed mode with
a failed send the delivery exception supersedes it (see the
counterexample). -/
theorem step_scope_contract (net : SendReq → Bool)
    (parse : String → Option SendReq) (dumpRec : SendReq → Int → String)
    (st : DState) (eid sid nm : String) (input : List (String × J))
    (body : StepBody) (tS tE now : Int) (cap : Nat) (fo : Bool)
    (hp : ∀ l, parse l
        ≠ some (stepPath eid,
            (stepRun net parse dumpRec st eid sid nm input body tS tE now cap fo).1)) :
    (body.exc = none →
      jLookup (stepRun net parse dumpRec st eid sid nm input body tS tE now cap fo).1
          "status" = some (.jstr "SUCCESS")
      ∧ jLookup (stepRun net parse dumpRec st eid sid nm input body tS tE now cap fo).1
          "error" = some .jnull)
    ∧ (∀ ty msg, body.exc = some (ty, msg) →
      jLookup (stepRun net parse dumpRec st eid sid nm input body tS tE now cap fo).1
          "status" = some (.jstr "ERROR")
      ∧ jLookup (stepRun net parse dumpRec st eid sid nm input body tS tE now cap fo).1
          "error" = some (.jobj [("type", .jstr ty), ("message", .jstr msg)]))
    ∧ (∀ ty msg, body.exc = some (ty, msg) →
        (fo = true ∨ net (stepPath eid,
            (stepRun net parse dumpRec st eid sid nm input body tS tE now cap fo).1) = true) →
        (stepRun net parse dumpRec st eid sid nm input body tS tE now cap fo).2.2
          = some (.pipeline ty msg))
    ∧ (jLookup (stepRun net parse dumpRec st eid sid nm input body tS tE now cap fo).1
          "ended_at_ms" = some (.jnum tE)
      ∧ jLookup (stepRun net parse dumpRec st eid sid nm input body tS tE now cap fo).1
          "duration_ms" = some (.jnum (tE - tS)))
    ∧ (jLookup (stepRun net parse dumpRec st eid sid nm input body tS tE now cap fo).1
          "input" = some (redact (.jobj input))
      ∧ jLookup (stepRun net parse dumpRec st eid sid nm input body tS tE now cap fo).1
          "output" = some (redact (.jobj body.output))
      ∧ jLookup (stepRun net parse dumpRec st eid sid nm input body tS tE now cap fo).1
          "artifacts" = some (redact (.jobj body.artifacts))
      ∧ (∀ e, errorJ body.exc = some e →
          jLookup (stepRun net parse dumpRec st eid sid nm input body tS tE now cap fo).1
            "error" = some (redact e)))
    ∧ (∃ pre,
        (stepRun net parse dumpRec st eid sid nm input body tS tE now cap fo).2.1.attempts
          = st.attempts ++ pre ++
              [(stepPath eid,
                (stepRun net parse dumpRec st eid sid nm input body tS tE now cap fo).1)]
        ∧ (stepPath eid,
            (stepRun net parse dumpRec st eid sid nm input body tS tE now cap fo).1)
          ∉ pre) := by
  have h1 : sensitiveKey "type" = false := rfl
  have h2 : sensitiveKey "message" = false := rfl
  refine ⟨?_, ?_, ?_, ?_, ?_, ?_⟩
  · intro hexc
    constructor <;>
      simp [stepRun, hexc, errorJ, stepPayload, jLookup, List.find?]
  · intro ty msg hexc
    constructor
    · simp [stepRun, hexc, stepPayload, jLookup, List.find?]
    · simp [stepRun, hexc, errorJ, stepPayload, jLookup, List.find?,
        redact, redactFields, h1, h2]
  · intro ty msg hexc hdeliv
    have h22 : (stepRun net parse dumpRec st eid sid nm input body tS tE now cap fo).2.2
        = if (postD net parse dumpRec st
              (stepPath eid,
                (stepRun net parse dumpRec st eid sid nm input body tS tE now cap fo).1)
              now cap fo).2
          then some Raised.delivery
          else body.exc.map (fun e => Raised.pipeline e.1 e.2) := rfl
    have hp2 : (postD net parse dumpRec st
        (stepPath eid,
          (stepRun net parse dumpRec st eid sid nm input body tS tE now cap fo).1)
        now cap fo).2 = false := by
      rcases hdeliv with hfo | hnet2
      · subst hfo
        cases hn : net (stepPath eid,
            (stepRun net parse dumpRec st eid sid nm input body tS tE now cap true).1) <;>
          simp [postD, postRaw, hn]
      · simp [postD, postRaw, hnet2]
    rw [h22, hp2]
    simp [hexc]
  · constructor <;> simp [stepRun, stepPayload, jLookup, List.find?]
  · refine ⟨?_, ?_, ?_, ?_⟩
    · simp [stepRun, stepPayload, jLookup, List.find?]
    · simp [stepRun, stepPayload, jLookup, List.find?]
    · simp [stepRun, stepPayload, jLookup, List.find?]
    · intro e he
      simp [stepRun, stepPayload, jLookup, List.find?, he]
  · obtain ⟨A, hA, hP⟩ := postD_attempts net parse dumpRec st
      (stepPath eid,
        (stepRun net parse dumpRec st eid sid nm input body tS tE now cap fo).1)
      now cap fo
    have h21 : (stepRun net parse dumpRec st eid sid nm input body tS tE now cap fo).2.1
        = (postD net parse dumpRec st
            (stepPath eid,
              (stepRun net parse dumpRec st eid sid nm input body tS tE now cap fo).1)
            now cap fo).1 := rfl
    refine ⟨A, ?_, ?_⟩
    · rw [h21, hA]
    · intro hmem
      obtain ⟨l, hl⟩ := hP _ hmem
      exact hp l hl

theorem step_scope_contract_witness :
    jLookup (stepRun alwaysOk noParse dumpConst ⟨none, []⟩ "e1" "s1" "nm" []
        ⟨[], "", [], [], none⟩ 0 1 2 100 true).1 "status"
      = some (.jstr "SUCCESS") := by
  have h := step_scope_contract alwaysOk noParse dumpConst ⟨none, []⟩ "e1" "s1"
    "nm" [] ⟨[], "", [], [], none⟩ 0 1 2 100 true (by simp [noParse])
  exact (h.1 rfl).1

/-- C2, counterexample to the claim as stated: with fail-open off and a
collector that rejects the send, a step whose block raised
`ValueError("boom")` propagates the delivery exception from the `finally`
block to the caller instead of re-raising the pipeline exception. -/
theorem step_reraise_counterexample :
    (stepRun alwaysFail noParse dumpConst ⟨none, []⟩ "e1" "s1" "nm" []
        ⟨[], "", [], [], some ("ValueError", "boom")⟩ 0 1 2 100 false).2.2
      = some Raised.delivery
    ∧ (stepRun alwaysFail noParse dumpConst ⟨none, []⟩ "e1" "s1" "nm" []
        ⟨[], "", [], [], some ("ValueError", "boom")⟩ 0 1 2 100 false).2.2
      ≠ some (Raised.pipeline "ValueError" "boom") := by
  constructor
  · rfl
  · decide

theorem foldl_nameMap (n : String) :
    ∀ (steps : List StepRow) (m0 : String → Option StepRow),
    (steps.foldl (fun m s => fun x => if x == s.name then some s else m x) m0) n
      = (steps.reverse.find? (fun s => s.name == n)).or (m0 n) := by
  intro steps
  induction steps with
  | nil => intro m0; rfl
  | cons s t ih =>
    intro m0
    rw [List.foldl_cons, ih]
    rw [List.reverse_cons, List.find?_append]
    cases hf : t.reverse.find? (fun x => x.name == n) with
    | some r => simp [hf]
    | none =>
      by_cases hn : n = s.name
      · subst hn
        simp [List.find?]
      · have e1 : (n == s.name) = false := beq_eq_false_iff_ne.mpr hn
        have e2 : (s.name == n) = false := beq_eq_false_iff_ne.mpr (Ne.symm hn)
        simp [List.find?, e1, e2]

theorem nameMap_eq_lastNamed (steps : List StepRow) (n : String) :
    nameMap steps n = lastNamed steps n := by
  rw [nameMap, foldl_nameMap, lastNamed]
  simp

theorem sortedNames_nodup (l : List String) : (sortedNames l).Nodup :=
  ((List.perm_insertionSort strLe l.dedup).nodup_iff).mpr l.nodup_dedup

theorem sortedNames_mem (l : List String) (n : String) :
    n ∈ sortedNames l ↔ n ∈ l :=
  (List.perm_insertionSort strLe l.dedup).mem_iff.trans List.mem_dedup

theorem string_data_inj (a b : String) (h : a.data = b.data) : a = b := by
  cases a; cases b; exact congrArg String.mk (by simpa using h)

theorem sortedNames_strict (l : List String) :
    List.Pairwise (fun a b : String => a.data < b.data) (sortedNames l) := by
  have hs : List.Pairwise strLe (sortedNames l) :=
    List.sorted_insertionSort strLe l.dedup
  have hn : List.Pairwise (fun a b : String => a ≠ b) (sortedNames l) :=
    sortedNames_nodup l
  exact (hs.and hn).imp
    (fun h => lt_of_le_of_ne h.1 (fun hd => h.2 (string_data_inj _ _ hd)))

/-- C7: for two stored executions, `diff` returns one comparison row per
name in the lexicographically sorted union of the two sides' step names,
in that order (strictly sorted, so one row per name); each row carries,
per side, the status, duration, the `keywords` field nested under the
step's output, and the reasoning of that side's step with the row's name
(the last such step winning when the name repeats), with `none` as the
explicit absence marker for each field when that side has no step with
that name; if either execution id is not found `diff` returns the
combined not-found indicator. -/
theorem diff_rows (st : Store) (a b : String) :
    (∀ ea sa eb sb, get_execution st a = some (ea, sa) →
      get_execution st b = some (eb, sb) →
      ∃ rows, diff st a b = some (ea, eb, rows)
        ∧ rows.map (·.step)
            = sortedNames (sa.map (·.name) ++ sb.map (·.name))
        ∧ List.Pairwise (fun x y : String => x.data < y.data) (rows.map (·.step))
        ∧ (∀ n, n ∈ rows.map (·.step)
            ↔ ((∃ s ∈ sa, s.name = n) ∨ ∃ s ∈ sb, s.name = n))
        ∧ (∀ row ∈ rows,
            row.a_status = (lastNamed sa row.step).map (·.status)
            ∧ row.b_status = (lastNamed sb row.step).map (·.status)
            ∧ row.a_duration_ms = (lastNamed sa row.step).map (·.duration_ms)
            ∧ row.b_duration_ms = (lastNamed sb row.step).map (·.duration_ms)
            ∧ row.a_keywords = (lastNamed sa row.step).bind keywordsOf
            ∧ row.b_keywords = (lastNamed sb row.step).bind keywordsOf
            ∧ row.a_reasoning = (lastNamed sa row.step).map (·.reasoning)
            ∧ row.b_reasoning = (lastNamed sb row.step).map (·.reasoning)
            ∧ ((∀ s ∈ sa, s.name ≠ row.step) →
                row.a_status = none ∧ row.a_duration_ms = none
                ∧ row.a_keywords = none ∧ row.a_reasoning = none)
            ∧ ((∀ s ∈ sb, s.name ≠ row.step) →
                row.b_status = none ∧ row.b_duration_ms = none
                ∧ row.b_keywords = none ∧ row.b_reasoning = none)))
    ∧ (((get_execution st a).isNone ∨ (get_execution st b).isNone) →
        diff st a b = none) := by
  constructor
  · intro ea sa eb sb ha hb
    have hd : diff st a b
        = some (ea, eb,
            (sortedNames (sa.map (·.name) ++ sb.map (·.name))).map
              (mkDiffRow sa sb)) := by
      rw [diff, ha, hb]
    have hsteps : ((sortedNames (sa.map (·.name) ++ sb.map (·.name))).map
          (mkDiffRow sa sb)).map (·.step)
        = sortedNames (sa.map (·.name) ++ sb.map (·.name)) := by
      rw [List.map_map]
      have : ((fun r : DiffRow => r.step) ∘ mkDiffRow sa sb) = fun n => n := by
        funext n
        simp [mkDiffRow]
      rw [this, List.map_id']
    refine ⟨_, hd, hsteps, ?_, ?_, ?_⟩
    · rw [hsteps]
      exact sortedNames_strict _
    · intro n
      rw [hsteps, sortedNames_mem]
      simp [List.mem_append, List.mem_map]
    · intro row hrow
      obtain ⟨n, hn, rfl⟩ := List.mem_map.mp hrow
      have hstep : (mkDiffRow sa sb n).step = n := rfl
      rw [hstep]
      have habs : ∀ (steps : List StepRow),
          (∀ s ∈ steps, s.name ≠ n) → lastNamed steps n = none := by
        intro steps hne
        rw [lastNamed]
        apply List.find?_eq_none.mpr
        intro x hx
        simpa [beq_iff_eq] using hne x (List.mem_reverse.mp hx)
      refine ⟨?_, ?_, ?_, ?_, ?_, ?_, ?_, ?_, ?_, ?_⟩
      · simp [mkDiffRow, nameMap_eq_lastNamed]
      · simp [mkDiffRow, nameMap_eq_lastNamed]
      · simp [mkDiffRow, nameMap_eq_lastNamed]
      · simp [mkDiffRow, nameMap_eq_lastNamed]
      · simp [mkDiffRow, nameMap_eq_lastNamed]
      · simp [mkDiffRow, nameMap_eq_lastNamed]
      · simp [mkDiffRow, nameMap_eq_lastNamed]
      · simp [mkDiffRow, nameMap_eq_lastNamed]
      · intro hno
        simp [mkDiffRow, nameMap_eq_lastNamed, habs sa hno]
      · intro hno
        simp [mkDiffRow, nameMap_eq_lastNamed, habs sb hno]
  · intro h
    rcases h with ha | hb
    · have hga : get_execution st a = none := Option.isNone_iff_eq_none.mp ha
      rw [diff, hga]
    · have hgb : get_execution st b = none := Option.isNone_iff_eq_none.mp hb
      cases hga : get_execution st a with
      | none => rw [diff, hga]
      | some p =>
        cases p with
        | mk ea sa => rw [diff, hga, hgb]

theorem diff_rows_witness :
    ∃ rows, diff sampleStore "A" "B" = some (execA, execB, rows)
      ∧ rows.map (·.step)
          = sortedNames ([stepX, stepY].map (·.name) ++ [stepY2, stepZ].map (·.name)) := by
  obtain ⟨rows, hd, hs, -⟩ := (diff_rows sampleStore "A" "B").1 execA
    [stepX, stepY] execB [stepY2, stepZ] rfl rfl
  exact ⟨rows, hd, hs⟩

theorem likeChars_pct_any (hay : List Char) : likeChars ['%'] hay = true := by
  rw [show likeChars ['%'] hay = hay.tails.any (likeChars []) by simp [likeChars]]
  rw [List.any_eq_true]
  exact ⟨[], (List.mem_tails _ _).mpr List.nil_suffix, by simp [likeChars]⟩

theorem like_plain_prefix (w : List Char)
    (hw : ∀ c ∈ w, c ≠ '%' ∧ c ≠ '_') :
    ∀ hay, likeChars (w ++ ['%']) hay = w.isPrefixOf hay := by
  induction w with
  | nil =>
    intro hay
    simpa [List.isPrefixOf] using likeChars_pct_any hay
  | cons c w ih =>
    intro hay
    have hc := hw c (by simp)
    cases hay with
    | nil => simp [likeChars, hc.1, List.isPrefixOf]
    | cons h t =>
      simp [likeChars, hc.1, hc.2, List.isPrefixOf,
        ih (fun x hx => hw x (by simp [hx])) t]

theorem containsSub_eq_any_tails (w : List Char) :
    ∀ hay, containsSub w hay = hay.tails.any (fun s => w.isPrefixOf s) := by
  intro hay
  induction hay with
  | nil => simp [containsSub]
  | cons h t ih => simp [containsSub, List.tails_cons, ih]

theorem like_sub (w : List Char) (hw : ∀ c ∈ w, c ≠ '%' ∧ c ≠ '_')
    (hay : List Char) :
    likeChars ('%' :: (w ++ ['%'])) hay = containsSub w hay := by
  rw [show likeChars ('%' :: (w ++ ['%'])) hay
      = hay.tails.any (likeChars (w ++ ['%'])) by simp [likeChars]]
  rw [containsSub_eq_any_tails]
  congr 1
  funext t
  exact like_plain_prefix w hw t

theorem likeMatch_plain (q hay : String)
    (hq : ∀ c ∈ (lowerStr q).data, c ≠ '%' ∧ c ≠ '_') :
    likeMatch q hay = substrOccurs q hay := by
  have hpat : (lowerStr ("%" ++ q ++ "%")).data
      = '%' :: ((lowerStr q).data ++ ['%']) := by
    simp [lowerStr, String.data_append, List.map_append,
      show lowerChar '%' = '%' from rfl]
  rw [likeMatch, substrOccurs, hpat]
  exact like_sub (lowerStr q).data hq (lowerStr hay).data

/-- C8 (amended): `search(q, limit)` returns exactly the executions
matched by the SQLite `LIKE '%q%'` test of `likeMatch` — lowercased (the
one consistent choice of case sensitivity), with `%` and `_` inside `q`
keeping their wildcard meaning — against the execution's name or
metadata blob, or the name, reasoning, input, output or artifacts blob
of at least one of its steps: every returned execution matches and is
stored; when the matching set fits in the limit every matching execution
is returned; results are ordered by `created_at_ms` descending, number
at most `limit`, and (given the primary-key invariant that stored
execution ids are distinct) contain each execution at most once.  For a
query containing neither `%` nor `_` the `LIKE` test coincides with
plain substring occurrence, so the claim's substring reading holds for
exactly those queries. -/
theorem search_results (dumps : List (String × J) → String) (st : Store)
    (q : String) (limit : Nat)
    (hids : (st.executions.map (·.execution_id)).Nodup) :
    (∀ e ∈ search dumps st q limit,
        e ∈ st.executions ∧ execMatches dumps st q e = true)
    ∧ ((st.executions.filter (execMatches dumps st q)).length ≤ limit →
        ∀ e ∈ st.executions, execMatches dumps st q e = true →
          e ∈ search dumps st q limit)
    ∧ List.Pairwise (fun x y : ExecRow => y.created_at_ms ≤ x.created_at_ms)
        (search dumps st q limit)
    ∧ (search dumps st q limit).length ≤ limit
    ∧ ((search dumps st q limit).map (·.execution_id)).Nodup
    ∧ ((∀ c ∈ (lowerStr q).data, c ≠ '%' ∧ c ≠ '_') →
        ∀ e, execMatches dumps st q e = substrMatches dumps st q e) := by
  have hperm : List.Perm
      (List.insertionSort execGeCreated
        (st.executions.filter (execMatches dumps st q)))
      (st.executions.filter (execMatches dumps st q)) :=
    List.perm_insertionSort _ _
  have hsorted : List.Pairwise execGeCreated
      (List.insertionSort execGeCreated
        (st.executions.filter (execMatches dumps st q))) :=
    List.sorted_insertionSort _ _
  refine ⟨?_, ?_, ?_, ?_, ?_, ?_⟩
  · intro e he
    have h1 : e ∈ List.insertionSort execGeCreated
        (st.executions.filter (execMatches dumps st q)) :=
      List.Sublist.mem he (List.take_sublist _ _)
    have h2 := hperm.mem_iff.mp h1
    exact ⟨(List.mem_filter.mp h2).1, (List.mem_filter.mp h2).2⟩
  · intro hlen e he hm
    have hl2 : (List.insertionSort execGeCreated
        (st.executions.filter (execMatches dumps st q))).length ≤ limit := by
      rw [hperm.length_eq]
      exact hlen
    rw [search, List.take_of_length_le hl2]
    exact hperm.mem_iff.mpr (List.mem_filter.mpr ⟨he, hm⟩)
  · exact List.Pairwise.sublist (List.take_sublist _ _) hsorted
  · rw [search]
    exact List.length_take_le _ _
  · have h1 : ((st.executions.filter (execMatches dumps st q)).map
        (·.execution_id)).Nodup :=
      List.Nodup.sublist
        (List.Sublist.map _ (List.filter_sublist _)) hids
    have h2 : ((List.insertionSort execGeCreated
        (st.executions.filter (execMatches dumps st q))).map
          (·.execution_id)).Nodup :=
      (List.Perm.nodup_iff (hperm.map _)).mpr h1
    rw [search, List.map_take]
    exact List.Nodup.sublist (List.take_sublist _ _) h2
  · intro hq e
    have hlm : ∀ hay, likeMatch q hay = substrOccurs q hay :=
      fun hay => likeMatch_plain q hay hq
    simp only [execMatches, substrMatches, hlm]

theorem search_results_witness :
    (∀ e ∈ search dumpsEmpty sampleStore "alpha" 50,
        e ∈ sampleStore.executions
        ∧ execMatches dumpsEmpty sampleStore "alpha" e = true)
    ∧ (search dumpsEmpty sampleStore "alpha" 50).length ≤ 50
    ∧ (∀ e, execMatches dumpsEmpty sampleStore "alpha" e
        = substrMatches dumpsEmpty sampleStore "alpha" e) := by
  have h := search_results dumpsEmpty sampleStore "alpha" 50 (by decide)
  exact ⟨h.1, h.2.2.2.1, h.2.2.2.2.2 (by decide)⟩

/-- C8, counterexample to the claim as stated: the underscore in the
query `"a_b"` is a `LIKE` single-character wildcard, so `search`
returns the execution named `"aXb"` even though `"a_b"` occurs as a
plain substring of none of its fields. -/
theorem search_wildcard_counterexample :
    search dumpsEmpty ⟨[⟨"W", "aXb", "app", 1, []⟩], []⟩ "a_b" 50
      = [⟨"W", "aXb", "app", 1, []⟩]
    ∧ substrMatches dumpsEmpty ⟨[⟨"W", "aXb", "app", 1, []⟩], []⟩ "a_b"
        ⟨"W", "aXb", "app", 1, []⟩ = false := by
  constructor
  · rfl
  · rfl

end XRay
